import Mathlib

/-!
Shallow embedding of `tools/validate-codeql-permissions.py`, a linter that
checks GitHub workflow files for correct `security-events: write` permission
placement on jobs that invoke `github/codeql-action/analyze`.

Parsed YAML documents are modelled by the inductive `Yaml`; the Python
operations the script performs on them (truthiness, the `in` operator,
subscription, `.get`, `.items()`, iteration) are modelled faithfully,
including the exceptions they raise, since the script catches those with a
blanket `except Exception` handler that emits a diagnostic.
-/

/-- A parsed YAML document / value, as produced by `yaml.safe_load`. -/
inductive Yaml where
  | ynull : Yaml
  | ybool : Bool → Yaml
  | yint : Int → Yaml
  | ystr : String → Yaml
  | yseq : List Yaml → Yaml
  | ymap : List (String × Yaml) → Yaml

/-- Python exceptions the script can encounter while traversing a document. -/
inductive PyErr where
  | typeError : PyErr
  | keyError : PyErr
  | attributeError : PyErr
deriving DecidableEq, Repr

/-- Substring containment on char lists: `pat` is a prefix of some
suffix. -/
def listContainsSub (pat : List Char) : List Char → Bool
  | [] => pat.isEmpty
  | c :: cs => pat.isPrefixOf (c :: cs) || listContainsSub pat cs

/-- Python `pat in s` for strings: substring containment. -/
def strContains (s pat : String) : Bool :=
  listContainsSub pat.toList s.toList

/-- Whether `s` ends with `suf` — the semantics of a `*.ext` glob
pattern on a file name (`*` matches any run of characters, including an
empty one, within one path component). -/
def strEndsWith (s suf : String) : Bool :=
  suf.toList.isSuffixOf s.toList

/-- First-match association-list lookup (the accessor used for every
dict operation of the model, so the observable behaviour is that of a
Python dict binding each key to its first value here). -/
def alookup (m : List (String × Yaml)) (k : String) : Option Yaml :=
  match m with
  | [] => none
  | (k', v) :: rest => if k' = k then some v else alookup rest k

/-- Python truthiness of a parsed YAML value (`bool(v)`). -/
def Yaml.truthy : Yaml → Bool
  | .ynull => false
  | .ybool b => b
  | .yint n => n != 0
  | .ystr s => s != ""
  | .yseq xs => !xs.isEmpty
  | .ymap m => !m.isEmpty

/-- Python `v == s` for a string literal `s`: only a string compares equal. -/
def yamlEqStr (v : Yaml) (s : String) : Bool :=
  match v with
  | .ystr t => t == s
  | _ => false

/-- Whether the value is a mapping (`isinstance(v, dict)`). -/
def Yaml.isMap : Yaml → Bool
  | .ymap _ => true
  | _ => false

/-- Python `k in v` for a string `k`: key membership on dicts, substring
containment on strings, element membership on lists; raises `TypeError`
on other values. -/
def pyIn (k : String) (v : Yaml) : Except PyErr Bool :=
  match v with
  | .ymap m => .ok (alookup m k).isSome
  | .ystr s => .ok (strContains s k)
  | .yseq xs => .ok (xs.any (fun e => yamlEqStr e k))
  | _ => .error .typeError

/-- Python `v[k]` for a string `k`: dict lookup (raising `KeyError` when
absent); raises `TypeError` on every non-dict. -/
def pySubscr (v : Yaml) (k : String) : Except PyErr Yaml :=
  match v with
  | .ymap m =>
    match alookup m k with
    | some x => .ok x
    | none => .error .keyError
  | _ => .error .typeError

/-- Python `v.get(k, d)`: only dicts have `.get`; raises `AttributeError`
otherwise. -/
def pyGetD (v : Yaml) (k : String) (d : Yaml) : Except PyErr Yaml :=
  match v with
  | .ymap m => .ok ((alookup m k).getD d)
  | _ => .error .attributeError

/-- Python `v.items()`: only dicts have `.items`; raises `AttributeError`
otherwise. -/
def pyItems (v : Yaml) : Except PyErr (List (String × Yaml)) :=
  match v with
  | .ymap m => .ok m
  | _ => .error .attributeError

/-- Python `for x in v`: lists yield their elements, strings their
one-character substrings, dicts their keys; other values raise
`TypeError`. -/
def pyIter (v : Yaml) : Except PyErr (List Yaml) :=
  match v with
  | .yseq xs => .ok xs
  | .ystr s => .ok (s.toList.map (fun c => .ystr c.toString))
  | .ymap m => .ok (m.map (fun p => .ystr p.1))
  | _ => .error .typeError

/-- The fixed action identifier the script searches for (line 43). -/
def targetAction : String := "github/codeql-action/analyze"

/-- A diagnostic printed to stderr, structured by emission site
(lines 57, 67, 72, 75, 81, 84 of the script). -/
inductive Diag where
  | parseError : String → Diag
  | processError : String → Diag
  | rootWrite : String → Diag
  | invalidFormat : String → String → Diag
  | missingPerm : String → String → Diag
  | wrongValue : String → String → Yaml → Diag

/-- The workflow file a diagnostic is attributed to. -/
def Diag.file : Diag → String
  | .parseError f => f
  | .processError f => f
  | .rootWrite f => f
  | .invalidFormat f _ => f
  | .missingPerm f _ => f
  | .wrongValue f _ _ => f

/-- An informational line printed to stdout while processing a file
(lines 50, 51, 78 of the script). -/
inductive Info where
  | found : String → Info
  | jobsList : List String → Info
  | okJob : String → Info

/-- The workflow file an informational line mentions, when it mentions
one: only the `Found CodeQL analyze workflow:` line names the file. -/
def Info.file? : Info → Option String
  | .found f => some f
  | .jobsList _ => none
  | .okJob _ => none

/-- The output a (partial or complete) processing step contributes:
stderr diagnostics, stdout informational lines, and the amount added to
the `error_count` counter. -/
structure Out where
  diags : List Diag
  infos : List Info
  errs : Nat

/-- Sequential composition of outputs: both streams and the counter
accumulate in order. -/
def Out.append (a b : Out) : Out :=
  ⟨a.diags ++ b.diags, a.infos ++ b.infos, a.errs + b.errs⟩

instance : Append Out := ⟨Out.append⟩

/-- The empty contribution. -/
def emptyOut : Out := ⟨[], [], 0⟩

/-- Lines 42-43: a step matches when it is a dict with a `uses` key whose
value contains the target action (by the Python `in` operator, which may
raise on a non-iterable `uses` value). Thanks to the short-circuiting
`and` at line 42, a non-dict step is skipped without any lookup. -/
def stepTest (step : Yaml) : Except PyErr Bool :=
  match step with
  | .ymap m =>
    match alookup m "uses" with
    | some u => pyIn targetAction u
    | none => .ok false
  | _ => .ok false

/-- Lines 41-45: scan the steps in order; stop at the first match
(`break`), so later steps are not examined at all. -/
def scanSteps : List Yaml → Except PyErr Bool
  | [] => .ok false
  | s :: rest =>
    match stepTest s with
    | .error e => .error e
    | .ok true => .ok true
    | .ok false => scanSteps rest

/-- Lines 40-45 for one job: `if 'steps' in job_config:` then iterate
`job_config['steps']`. Each of the three operations can raise. -/
def jobScan (cfg : Yaml) : Except PyErr Bool :=
  match pyIn "steps" cfg with
  | .error e => .error e
  | .ok false => .ok false
  | .ok true =>
    match pySubscr cfg "steps" with
    | .error e => .error e
    | .ok stepsVal =>
      match pyIter stepsVal with
      | .error e => .error e
      | .ok steps => scanSteps steps

/-- Lines 39-45: walk `workflow['jobs'].items()` in insertion order,
collecting the names of jobs whose scan found a matching step. An
exception raised while scanning any job discards the whole list. -/
def scanJobs : List (String × Yaml) → Except PyErr (List String)
  | [] => .ok []
  | (name, cfg) :: rest =>
    match jobScan cfg with
    | .error e => .error e
    | .ok b =>
      match scanJobs rest with
      | .error e => .error e
      | .ok l => .ok (if b then name :: l else l)

/-- Lines 34-48: the relevant-job list of a parsed document. A falsy
document or one without a `jobs` key is skipped (no relevant jobs); the
membership test, the subscription, `.items()` and the scan itself can
raise, which the caller turns into a processing-error diagnostic. -/
def relevantOf (w : Yaml) : Except PyErr (List String) :=
  if !w.truthy then .ok []
  else
    match pyIn "jobs" w with
    | .error e => .error e
    | .ok false => .ok []
    | .ok true =>
      match pySubscr w "jobs" with
      | .error e => .error e
      | .ok jv =>
        match pyItems jv with
        | .error e => .error e
        | .ok jm => scanJobs jm

/-- Lines 53-59: the root-level permission rule, applied to the value of
`workflow.get('permissions', {})`. A diagnostic is emitted exactly when
that value is a dict binding `security-events` to the string `write`. -/
def checkRoot (file : String) (rp : Yaml) : Out :=
  match rp with
  | .ymap pm =>
    match alookup pm "security-events" with
    | some v =>
      if yamlEqStr v "write" then ⟨[.rootWrite file], [], 1⟩ else emptyOut
    | none => emptyOut
  | _ => emptyOut

/-- Lines 64-78: the job-level permission rule for one relevant job.
`job_config.get('permissions', {})` raises on a non-dict config (never
reached for a relevant job); then exactly one of the four branches runs:
invalid format, missing key, wrong value, or the OK confirmation line. -/
def checkJob (file name : String) (cfg : Yaml) : Except PyErr Out :=
  match pyGetD cfg "permissions" (.ymap []) with
  | .error e => .error e
  | .ok jp =>
    match jp with
    | .ymap pm =>
      match alookup pm "security-events" with
      | none => .ok ⟨[.missingPerm file name], [], 1⟩
      | some v =>
        if yamlEqStr v "write" then .ok ⟨[], [.okJob name], 0⟩
        else .ok ⟨[.wrongValue file name v], [], 1⟩
    | _ => .ok ⟨[.invalidFormat file name], [], 1⟩

/-- Line 63: `workflow['jobs'][job_name]`. -/
def jobsLookup (w : Yaml) (n : String) : Except PyErr Yaml :=
  match pySubscr w "jobs" with
  | .error e => .error e
  | .ok jv => pySubscr jv n

/-- Lines 62-78: check each relevant job in order, re-reading
`workflow['jobs'][job_name]`. An exception aborts the loop but the
output produced so far is kept (it was already printed). -/
def checkJobsLoop (file : String) (w : Yaml) : List String → Out × Option PyErr
  | [] => (emptyOut, none)
  | n :: rest =>
    match jobsLookup w n with
    | .error e => (emptyOut, some e)
    | .ok cfg =>
      match checkJob file n cfg with
      | .error e => (emptyOut, some e)
      | .ok o =>
        (o ++ (checkJobsLoop file w rest).1, (checkJobsLoop file w rest).2)

/-- Lines 34-78: the whole `try` body for a successfully parsed document.
Returns the output printed before returning or raising, and the
exception, if one was raised. Files with no relevant job contribute
nothing; otherwise the two header lines, the root check and the per-job
checks run in order. -/
def processParsed (file : String) (w : Yaml) : Out × Option PyErr :=
  match relevantOf w with
  | .error e => (emptyOut, some e)
  | .ok [] => (emptyOut, none)
  | .ok names =>
    let header : Out := ⟨[], [.found file, .jobsList names], 0⟩
    match pyGetD w "permissions" (.ymap []) with
    | .error e => (header, some e)
    | .ok rp =>
      (header ++ (checkRoot file rp ++ (checkJobsLoop file w names).1),
        (checkJobsLoop file w names).2)

/-- Lines 29-85 for one file: a parse failure yields one parse-error
diagnostic; an exception raised by the body is caught by the blanket
handler, which appends one processing-error diagnostic after whatever
the body already printed. -/
def processFile (file : String) (p : Except Unit Yaml) : Out :=
  match p with
  | .error _ => ⟨[.parseError file], [], 1⟩
  | .ok w =>
    match (processParsed file w).2 with
    | none => (processParsed file w).1
    | some _ => (processParsed file w).1 ++ ⟨[.processError file], [], 1⟩

/-- Lines 29-85: process the discovered files in order; no file aborts
the run. -/
def runFiles : List (String × Except Unit Yaml) → Out
  | [] => emptyOut
  | (f, p) :: rest => processFile f p ++ runFiles rest

/-- The observable result of a whole run: whether the fatal
directory-missing error was printed, the per-file output, the final
summary count (absent when the run aborted before the summary), and the
value returned to `sys.exit`. -/
structure RunResult where
  dirError : Bool
  out : Out
  summary : Option Nat
  exitCode : Nat

/-- Lines 17-95: the whole validator, given whether `.github/workflows`
exists and the discovered files with their parse results. The exit
status is the returned error count (line 92), or 1 when the directory is
missing (line 24). -/
def validate (dirExists : Bool) (files : List (String × Except Unit Yaml)) :
    RunResult :=
  if dirExists then
    let o := runFiles files
    ⟨false, o, some o.errs, o.errs⟩
  else
    ⟨true, emptyOut, none, 1⟩

/-- One file of the repository checkout: the path components of its
containing directory, its base name, and what parsing its content
yields. -/
structure RepoFile where
  dir : List String
  name : String
  parsed : Except Unit Yaml

/-- The fixed directory the script reads (line 20). -/
def workflowsDirPath : List String := [".github", "workflows"]

/-- The path string a file is reported under. -/
def fullPath (f : RepoFile) : String :=
  String.intercalate "/" f.dir ++ "/" ++ f.name

/-- Line 27: `glob('*.yml')` then `glob('*.yaml')`, both non-recursive
and only over the workflows directory itself. -/
def discover (repo : List RepoFile) : List RepoFile :=
  repo.filter (fun f => f.dir == workflowsDirPath && strEndsWith f.name ".yml") ++
    repo.filter (fun f => f.dir == workflowsDirPath && strEndsWith f.name ".yaml")

/-- The whole run over a repository checkout: only discovered files are
opened, parsed and checked. -/
def runRepo (dirExists : Bool) (repo : List RepoFile) : RunResult :=
  validate dirExists ((discover repo).map (fun f => (fullPath f, f.parsed)))

/-- Reference predicate, following the wording of the specification: a
step matches when it is a mapping with a `uses` key whose string value
contains the target action identifier as a substring. -/
def stepMatchesSpec (s : Yaml) : Bool :=
  match s with
  | .ymap m =>
    match alookup m "uses" with
    | some (.ystr u) => strContains u targetAction
    | _ => false
  | _ => false

/-- A step is well typed (in the sense of the data model of the
specification, where `uses` is an identifier string) when its `uses`
key, if the step is a mapping that has one, holds a string. -/
def stepWellTyped (s : Yaml) : Bool :=
  match s with
  | .ymap m =>
    match alookup m "uses" with
    | some (.ystr _) => true
    | some _ => false
    | none => true
  | _ => true

/-- A job configuration is well typed when it is a mapping whose
`steps` key, if present, holds a sequence of well-typed steps. -/
def cfgWellTyped (cfg : Yaml) : Bool :=
  match cfg with
  | .ymap jm =>
    match alookup jm "steps" with
    | some (.yseq steps) => steps.all stepWellTyped
    | some _ => false
    | none => true
  | _ => false

/-- Reference predicate, following the wording of the specification: a
job is relevant when at least one of its steps matches. -/
def jobRelevantSpec (cfg : Yaml) : Bool :=
  match cfg with
  | .ymap jm =>
    match alookup jm "steps" with
    | some (.yseq steps) => steps.any stepMatchesSpec
    | _ => false
  | _ => false

/-- Scenario of the specification: a job referencing the action with
job-level `security-events: write` and no root permissions gives exit
status 0. -/
def wfGood : Yaml :=
  .ymap [("jobs", .ymap [("analyze", .ymap
    [("permissions", .ymap [("security-events", .ystr "write")]),
     ("steps", .yseq [.ymap [("uses", .ystr "github/codeql-action/analyze@v3")]])])])]

/-- Scenario of the specification: root `security-events: write` plus a
relevant job whose permissions lack `security-events` gives exit
status 2. -/
def wfBad : Yaml :=
  .ymap [("permissions", .ymap [("security-events", .ystr "write")]),
    ("jobs", .ymap [("analyze", .ymap
      [("permissions", .ymap [("contents", .ystr "read")]),
       ("steps", .yseq [.ymap [("uses", .ystr "github/codeql-action/analyze@v3")]])])])]

/-- A workflow whose only job references actions other than the CodeQL
analyze action: it is not relevant. -/
def wfIrrelevant : Yaml :=
  .ymap [("jobs", .ymap [("build", .ymap
    [("steps", .yseq [.ymap [("uses", .ystr "actions/checkout@v4")]])])])]

/-- A relevant job configuration with no `permissions` key, used to
exercise the missing-permission branch of the job-level check. -/
def cfgNoPerms : Yaml :=
  .ymap [("steps", .yseq [.ymap [("uses", .ystr "github/codeql-action/analyze@v3")]])]

/-- A two-job jobs mapping: the first job is relevant, the second is
not. -/
def jobsTwo : List (String × Yaml) :=
  [("analyze", cfgNoPerms),
   ("build", .ymap [("steps", .yseq [.ymap [("uses", .ystr "actions/checkout@v4")]])])]

/-- The root permissions-bearing mapping of `wfBad`, used to exercise
the root-level rule. -/
def rootMapBad : List (String × Yaml) :=
  [("permissions", .ymap [("security-events", .ystr "write")]), ("jobs", .ymap [])]

/-- A repository checkout with one workflow file and one file of another
extension in the same directory, used to exercise discovery. -/
def repoTwo : List RepoFile :=
  [⟨[".github", "workflows"], "ci.yml", .ok wfIrrelevant⟩,
   ⟨[".github", "workflows"], "notes.txt", .ok wfBad⟩]

/-- Line 54: the root permissions value of a parsed workflow mapping,
`workflow.get('permissions', {})`. -/
def rootPermsOf (m : List (String × Yaml)) : Yaml :=
  (alookup m "permissions").getD (.ymap [])

/-- Whether a diagnostic is the root-level placement diagnostic of
line 57 (as opposed to a per-job or per-file one). -/
def Diag.isRoot : Diag → Bool
  | .rootWrite _ => true
  | _ => false

-- Sanity checks of the embedding against the two scenarios spelled out
-- in the specification.
example : (validate true [(".github/workflows/a.yml", .ok wfGood)]).exitCode = 0 := rfl
example : (validate true [(".github/workflows/b.yml", .ok wfBad)]).exitCode = 2 := rfl
example : strContains "uses github/codeql-action/analyze@v3" targetAction = true := rfl
example : strContains "github/codeql" targetAction = false := rfl
example : pyIn "jobs" (.yint 5) = .error .typeError := rfl
example : pyIn "jobs" (.ystr "all jobs here") = .ok true := rfl

/-! ## Helper lemmas -/

theorem Out.append_def (a b : Out) :
    a ++ b = ⟨a.diags ++ b.diags, a.infos ++ b.infos, a.errs + b.errs⟩ := rfl

theorem emptyOut_append (o : Out) : emptyOut ++ o = o := by
  cases o with
  | mk d i e => simp [Out.append_def, emptyOut]

theorem append_emptyOut (o : Out) : o ++ emptyOut = o := by
  cases o with
  | mk d i e => simp [Out.append_def, emptyOut]

theorem Out.append_assoc (a b c : Out) : a ++ b ++ c = a ++ (b ++ c) := by
  simp [Out.append_def, List.append_assoc, Nat.add_assoc]

theorem runFiles_append (l1 l2 : List (String × Except Unit Yaml)) :
    runFiles (l1 ++ l2) = runFiles l1 ++ runFiles l2 := by
  induction l1 with
  | nil => simp [runFiles, emptyOut_append]
  | cons x xs ih =>
    cases x with
    | mk f p => simp [runFiles, ih, Out.append_assoc]

theorem checkRoot_cases (f : String) (rp : Yaml) :
    checkRoot f rp = ⟨[.rootWrite f], [], 1⟩ ∨ checkRoot f rp = emptyOut := by
  cases rp with
  | ynull => exact Or.inr rfl
  | ybool b => exact Or.inr rfl
  | yint i => exact Or.inr rfl
  | ystr s => exact Or.inr rfl
  | yseq xs => exact Or.inr rfl
  | ymap pm =>
    simp only [checkRoot]
    cases hse : alookup pm "security-events" with
    | none => exact Or.inr rfl
    | some v =>
      by_cases hv : yamlEqStr v "write" = true
      · exact Or.inl (by simp [hv])
      · exact Or.inr (by simp [hv])

theorem checkRoot_errs (f : String) (rp : Yaml) :
    (checkRoot f rp).errs = (checkRoot f rp).diags.length := by
  rcases checkRoot_cases f rp with h | h <;> rw [h] <;> rfl

theorem checkJob_shapes (f n : String) (cfg : Yaml) :
    (∃ e, checkJob f n cfg = .error e) ∨
    checkJob f n cfg = .ok ⟨[.invalidFormat f n], [], 1⟩ ∨
    checkJob f n cfg = .ok ⟨[.missingPerm f n], [], 1⟩ ∨
    (∃ v, checkJob f n cfg = .ok ⟨[.wrongValue f n v], [], 1⟩) ∨
    checkJob f n cfg = .ok ⟨[], [.okJob n], 0⟩ := by
  cases cfg with
  | ynull => exact Or.inl ⟨.attributeError, rfl⟩
  | ybool b => exact Or.inl ⟨.attributeError, rfl⟩
  | yint i => exact Or.inl ⟨.attributeError, rfl⟩
  | ystr s => exact Or.inl ⟨.attributeError, rfl⟩
  | yseq xs => exact Or.inl ⟨.attributeError, rfl⟩
  | ymap m =>
    simp only [checkJob, pyGetD]
    cases hjp : (alookup m "permissions").getD (Yaml.ymap []) with
    | ynull => exact Or.inr (Or.inl rfl)
    | ybool b => exact Or.inr (Or.inl rfl)
    | yint i => exact Or.inr (Or.inl rfl)
    | ystr s => exact Or.inr (Or.inl rfl)
    | yseq xs => exact Or.inr (Or.inl rfl)
    | ymap pm =>
      cases hse : alookup pm "security-events" with
      | none => exact Or.inr (Or.inr (Or.inl (by simp [hse])))
      | some v =>
        by_cases h : yamlEqStr v "write" = true
        · exact Or.inr (Or.inr (Or.inr (Or.inr (by simp [hse, h]))))
        · exact Or.inr (Or.inr (Or.inr (Or.inl ⟨v, by simp [hse, h]⟩)))

theorem checkJob_errs (f n : String) (cfg : Yaml) (o : Out)
    (h : checkJob f n cfg = .ok o) : o.errs = o.diags.length := by
  rcases checkJob_shapes f n cfg with ⟨e, he⟩ | h1 | h1 | ⟨v, h1⟩ | h1 <;>
    [skip; skip; skip; skip; skip]
  · rw [he] at h; exact Except.noConfusion h
  · rw [h1] at h; injection h with h2; subst h2; rfl
  · rw [h1] at h; injection h with h2; subst h2; rfl
  · rw [h1] at h; injection h with h2; subst h2; rfl
  · rw [h1] at h; injection h with h2; subst h2; rfl

theorem checkJobsLoop_errs (f : String) (w : Yaml) (names : List String) :
    (checkJobsLoop f w names).1.errs = (checkJobsLoop f w names).1.diags.length := by
  induction names with
  | nil => rfl
  | cons n rest ih =>
    cases hl : jobsLookup w n with
    | error e => simp [checkJobsLoop, hl, emptyOut]
    | ok cfg =>
      cases hc : checkJob f n cfg with
      | error e => simp [checkJobsLoop, hl, hc, emptyOut]
      | ok o =>
        have h1 := checkJob_errs f n cfg o hc
        simp [checkJobsLoop, hl, hc, Out.append_def, h1, ih]

theorem processParsed_errs (f : String) (w : Yaml) :
    (processParsed f w).1.errs = (processParsed f w).1.diags.length := by
  cases hr : relevantOf w with
  | error e => simp [processParsed, hr, emptyOut]
  | ok names =>
    cases names with
    | nil => simp [processParsed, hr, emptyOut]
    | cons n rest =>
      cases hg : pyGetD w "permissions" (.ymap []) with
      | error e => simp [processParsed, hr, hg]
      | ok rp =>
        have hcr := checkRoot_errs f rp
        have hl := checkJobsLoop_errs f w (n :: rest)
        simp [processParsed, hr, hg, Out.append_def, hcr, hl]

theorem processFile_errs (f : String) (p : Except Unit Yaml) :
    (processFile f p).errs = (processFile f p).diags.length := by
  cases p with
  | error e => rfl
  | ok w =>
    cases h2 : (processParsed f w).2 with
    | none => simp [processFile, h2, processParsed_errs f w]
    | some e => simp [processFile, h2, Out.append_def, processParsed_errs f w]

theorem runFiles_errs (files : List (String × Except Unit Yaml)) :
    (runFiles files).errs = (runFiles files).diags.length := by
  induction files with
  | nil => rfl
  | cons x xs ih =>
    cases x with
    | mk f p => simp [runFiles, Out.append_def, processFile_errs f p, ih]

theorem yamlEqStr_eq (v : Yaml) (s : String) :
    yamlEqStr v s = true ↔ v = .ystr s := by
  cases v <;> simp [yamlEqStr]

theorem checkJob_diags_props (f n : String) (cfg : Yaml) (o : Out)
    (h : checkJob f n cfg = .ok o) :
    ∀ d ∈ o.diags, d.isRoot = false ∧ d.file = f := by
  rcases checkJob_shapes f n cfg with ⟨e, he⟩ | h1 | h1 | ⟨v, h1⟩ | h1
  · rw [he] at h; exact Except.noConfusion h
  · rw [h1] at h; injection h with h2; subst h2
    intro d hd; simp at hd; subst hd; exact ⟨rfl, rfl⟩
  · rw [h1] at h; injection h with h2; subst h2
    intro d hd; simp at hd; subst hd; exact ⟨rfl, rfl⟩
  · rw [h1] at h; injection h with h2; subst h2
    intro d hd; simp at hd; subst hd; exact ⟨rfl, rfl⟩
  · rw [h1] at h; injection h with h2; subst h2
    intro d hd; simp at hd

theorem checkJobsLoop_diags_props (f : String) (w : Yaml)
    (names : List String) :
    ∀ d ∈ (checkJobsLoop f w names).1.diags, d.isRoot = false ∧ d.file = f := by
  induction names with
  | nil => intro d hd; simp [checkJobsLoop, emptyOut] at hd
  | cons n rest ih =>
    intro d hd
    cases hl : jobsLookup w n with
    | error e => simp [checkJobsLoop, hl, emptyOut] at hd
    | ok cfg =>
      cases hc : checkJob f n cfg with
      | error e => simp [checkJobsLoop, hl, hc, emptyOut] at hd
      | ok o =>
        simp [checkJobsLoop, hl, hc, Out.append_def] at hd
        rcases hd with hd | hd
        · exact checkJob_diags_props f n cfg o hc d hd
        · exact ih d hd

theorem checkRoot_diags_props (f : String) (rp : Yaml) :
    ∀ d ∈ (checkRoot f rp).diags, d.isRoot = true ∧ d.file = f := by
  rcases checkRoot_cases f rp with h | h <;> rw [h]
  · intro d hd; simp at hd; subst hd; exact ⟨rfl, rfl⟩
  · intro d hd; simp [emptyOut] at hd

/-! ## Claims -/

/-- C8: if the workflow directory does not exist, the validator emits the
directory-missing error and terminates with exit status exactly 1 before
reading or checking any file — no per-file diagnostics, no informational
output, no summary line. -/
theorem directoryMissing_fatal (files : List (String × Except Unit Yaml)) :
    validate false files = ⟨true, emptyOut, none, 1⟩ := rfl

/-- C9: the validator is deterministic. Its embedding is a pure function
of the directory state (existence of the directory plus the parse result
of each discovered file), which is the only input the script reads, so
two runs over an unchanged directory produce identical diagnostics,
identical informational output and an identical exit status. -/
theorem validator_deterministic (d : Bool)
    (files : List (String × Except Unit Yaml)) (r1 r2 : RunResult)
    (h1 : r1 = validate d files) (h2 : r2 = validate d files) :
    r1.out.diags = r2.out.diags ∧ r1.out.infos = r2.out.infos ∧
      r1.exitCode = r2.exitCode := by
  subst h1; subst h2; exact ⟨rfl, rfl, rfl⟩

theorem validator_deterministic_witness :
    (validate true [(".github/workflows/b.yml", .ok wfBad)]).out.diags =
        (validate true [(".github/workflows/b.yml", .ok wfBad)]).out.diags ∧
      (validate true [(".github/workflows/b.yml", .ok wfBad)]).out.infos =
        (validate true [(".github/workflows/b.yml", .ok wfBad)]).out.infos ∧
      (validate true [(".github/workflows/b.yml", .ok wfBad)]).exitCode =
        (validate true [(".github/workflows/b.yml", .ok wfBad)]).exitCode :=
  validator_deterministic true [(".github/workflows/b.yml", .ok wfBad)]
    (validate true [(".github/workflows/b.yml", .ok wfBad)])
    (validate true [(".github/workflows/b.yml", .ok wfBad)]) rfl rfl

/-- C7: a file whose content fails to parse yields exactly one diagnostic
attributing the parse failure to that file, with an error-count increment
of exactly one, and the run continues: the output of a run containing the
failing file is the output of the files before it, then that single
diagnostic, then the output of the files after it. -/
theorem parseFailure_nonfatal (f : String)
    (pre post : List (String × Except Unit Yaml)) :
    processFile f (.error ()) = ⟨[.parseError f], [], 1⟩ ∧
      runFiles (pre ++ (f, .error ()) :: post) =
        runFiles pre ++ (⟨[.parseError f], [], 1⟩ ++ runFiles post) := by
  refine ⟨rfl, ?_⟩
  rw [runFiles_append pre ((f, .error ()) :: post)]
  have h2 : runFiles ((f, .error ()) :: post) =
      ⟨[.parseError f], [], 1⟩ ++ runFiles post := rfl
  rw [h2]

/-- C4: when the workflow directory exists, the value the process exits
with equals the total number of diagnostics accumulated across all files
(0 when no diagnostic was emitted), with no cap or clamping, and the
summary line reports the same count. -/
theorem exitStatus_eq_diagCount (files : List (String × Except Unit Yaml)) :
    (validate true files).exitCode = ((validate true files).out.diags).length ∧
      (validate true files).out = runFiles files ∧
      (validate true files).summary = some (validate true files).exitCode := by
  exact ⟨runFiles_errs files, rfl, rfl⟩

theorem jobScan_ok_isMap (cfg : Yaml) (h : jobScan cfg = .ok true) :
    cfg.isMap = true := by
  cases cfg with
  | ymap m => rfl
  | ynull => simp [jobScan, pyIn] at h
  | ybool b => simp [jobScan, pyIn] at h
  | yint i => simp [jobScan, pyIn] at h
  | ystr s =>
    cases hs : strContains s "steps" with
    | false => simp [jobScan, pyIn, hs] at h
    | true => simp [jobScan, pyIn, pySubscr, hs] at h
  | yseq xs =>
    cases hs : xs.any (fun e => yamlEqStr e "steps") with
    | false => simp [jobScan, pyIn, hs] at h
    | true => simp [jobScan, pyIn, pySubscr, hs] at h

/-- C2: for a parsed workflow mapping, the root-level check emits its
diagnostic — with an error-count increment of exactly one — if and only
if the root `permissions` value is a mapping binding `security-events`
to exactly the string `write`; when `permissions` is absent (the `.get`
default applies), is not a mapping, lacks the key, or binds it to any
other value, the check emits nothing. Moreover, in the full output for a
file with at least one relevant job, the root-level diagnostics are
exactly the root check's contribution. -/
theorem rootRule_iff (file : String) (m : List (String × Yaml)) :
    (checkRoot file (rootPermsOf m) = ⟨[.rootWrite file], [], 1⟩ ↔
      ∃ pm, rootPermsOf m = .ymap pm ∧
        alookup pm "security-events" = some (.ystr "write")) ∧
    ((∀ pm, rootPermsOf m = .ymap pm →
        alookup pm "security-events" ≠ some (.ystr "write")) →
      checkRoot file (rootPermsOf m) = emptyOut) ∧
    (∀ names, relevantOf (.ymap m) = .ok names → names ≠ [] →
      (processParsed file (.ymap m)).1.diags.countP Diag.isRoot =
        (checkRoot file (rootPermsOf m)).diags.length) := by
  have mp : checkRoot file (rootPermsOf m) = ⟨[.rootWrite file], [], 1⟩ →
      ∃ pm, rootPermsOf m = .ymap pm ∧
        alookup pm "security-events" = some (.ystr "write") := by
    intro h
    cases hrp : rootPermsOf m with
    | ymap pm =>
      cases hse : alookup pm "security-events" with
      | none => rw [hrp] at h; simp [checkRoot, hse, emptyOut] at h
      | some v =>
        by_cases hv : yamlEqStr v "write" = true
        · refine ⟨pm, rfl, ?_⟩
          rw [hse, (yamlEqStr_eq v "write").mp hv]
        · rw [hrp] at h; simp [checkRoot, hse, hv, emptyOut] at h
    | ynull => rw [hrp] at h; simp [checkRoot, emptyOut] at h
    | ybool b => rw [hrp] at h; simp [checkRoot, emptyOut] at h
    | yint i => rw [hrp] at h; simp [checkRoot, emptyOut] at h
    | ystr s => rw [hrp] at h; simp [checkRoot, emptyOut] at h
    | yseq xs => rw [hrp] at h; simp [checkRoot, emptyOut] at h
  have mpr : (∃ pm, rootPermsOf m = .ymap pm ∧
      alookup pm "security-events" = some (.ystr "write")) →
      checkRoot file (rootPermsOf m) = ⟨[.rootWrite file], [], 1⟩ := by
    rintro ⟨pm, hrp, hse⟩
    rw [hrp]
    simp [checkRoot, hse, yamlEqStr]
  refine ⟨⟨mp, mpr⟩, ?_, ?_⟩
  · intro hno
    rcases checkRoot_cases file (rootPermsOf m) with h | h
    · rcases mp h with ⟨pm, h1, h2⟩
      exact absurd h2 (hno pm h1)
    · exact h
  · intro names hr hne
    cases names with
    | nil => exact absurd rfl hne
    | cons n rest =>
      have hg : pyGetD (.ymap m) "permissions" (.ymap []) =
          .ok (rootPermsOf m) := rfl
      have hloop : (checkJobsLoop file (.ymap m) (n :: rest)).1.diags.countP
          Diag.isRoot = 0 := by
        rw [List.countP_eq_zero]
        intro d hd
        simp [(checkJobsLoop_diags_props file (.ymap m) (n :: rest) d hd).1]
      have hroot : (checkRoot file (rootPermsOf m)).diags.countP Diag.isRoot =
          (checkRoot file (rootPermsOf m)).diags.length := by
        rw [List.countP_eq_length]
        intro d hd
        exact (checkRoot_diags_props file (rootPermsOf m) d hd).1
      simp [processParsed, hr, hg, Out.append_def, List.countP_append,
        hloop, hroot]

theorem rootRule_iff_witness :
    checkRoot ".github/workflows/b.yml" (rootPermsOf rootMapBad) =
      ⟨[.rootWrite ".github/workflows/b.yml"], [], 1⟩ :=
  (rootRule_iff ".github/workflows/b.yml" rootMapBad).1.mpr
    ⟨[("security-events", .ystr "write")], rfl, rfl⟩

/-- C1: for every relevant job (one whose scan found a matching step) of
a successfully parsed workflow, the job configuration is a mapping and
the job-level check emits exactly one outcome: if `permissions` exists
but is not a mapping, exactly the invalid-format diagnostic with count 1
(and nothing further for the job); else if the effective permissions
mapping (absent defaults to empty) lacks `security-events`, exactly the
missing diagnostic with count 1; else if the value differs from the
string `write`, exactly the wrong-value diagnostic naming that value,
with count 1; else no diagnostic and exactly one confirmation line. -/
theorem jobRule_outcomes (file name : String) (cfg : Yaml)
    (hrel : jobScan cfg = .ok true) :
    cfg.isMap = true ∧
    ∀ jm, cfg = .ymap jm →
      ((∀ v, alookup jm "permissions" = some v → v.isMap = false →
          checkJob file name cfg = .ok ⟨[.invalidFormat file name], [], 1⟩) ∧
       (∀ pm, (alookup jm "permissions").getD (.ymap []) = .ymap pm →
          alookup pm "security-events" = none →
          checkJob file name cfg = .ok ⟨[.missingPerm file name], [], 1⟩) ∧
       (∀ pm v, (alookup jm "permissions").getD (.ymap []) = .ymap pm →
          alookup pm "security-events" = some v → v ≠ .ystr "write" →
          checkJob file name cfg = .ok ⟨[.wrongValue file name v], [], 1⟩) ∧
       (∀ pm, (alookup jm "permissions").getD (.ymap []) = .ymap pm →
          alookup pm "security-events" = some (.ystr "write") →
          checkJob file name cfg = .ok ⟨[], [.okJob name], 0⟩)) := by
  refine ⟨jobScan_ok_isMap cfg hrel, ?_⟩
  intro jm hjm
  subst hjm
  refine ⟨?_, ?_, ?_, ?_⟩
  · intro v hv hvm
    have hjp : (alookup jm "permissions").getD (Yaml.ymap []) = v := by
      rw [hv]; rfl
    cases v with
    | ymap pm => simp [Yaml.isMap] at hvm
    | ynull => simp [checkJob, pyGetD, hjp]
    | ybool b => simp [checkJob, pyGetD, hjp]
    | yint i => simp [checkJob, pyGetD, hjp]
    | ystr s => simp [checkJob, pyGetD, hjp]
    | yseq xs => simp [checkJob, pyGetD, hjp]
  · intro pm hpm hse
    simp [checkJob, pyGetD, hpm, hse]
  · intro pm v hpm hse hv
    have hb : ¬(yamlEqStr v "write" = true) := fun hh =>
      hv ((yamlEqStr_eq v "write").mp hh)
    simp [checkJob, pyGetD, hpm, hse, hb]
  · intro pm hpm hse
    simp [checkJob, pyGetD, hpm, hse, yamlEqStr]

theorem jobRule_outcomes_witness :
    checkJob ".github/workflows/b.yml" "analyze" cfgNoPerms =
      .ok ⟨[.missingPerm ".github/workflows/b.yml" "analyze"], [], 1⟩ :=
  ((jobRule_outcomes ".github/workflows/b.yml" "analyze" cfgNoPerms rfl).2
    _ rfl).2.1 [] rfl rfl

theorem checkJob_infos_props (f n : String) (cfg : Yaml) (o : Out)
    (h : checkJob f n cfg = .ok o) : ∀ i ∈ o.infos, i.file? = none := by
  rcases checkJob_shapes f n cfg with ⟨e, he⟩ | h1 | h1 | ⟨v, h1⟩ | h1
  · rw [he] at h; exact Except.noConfusion h
  · rw [h1] at h; injection h with h2; subst h2; intro i hi; simp at hi
  · rw [h1] at h; injection h with h2; subst h2; intro i hi; simp at hi
  · rw [h1] at h; injection h with h2; subst h2; intro i hi; simp at hi
  · rw [h1] at h; injection h with h2; subst h2
    intro i hi; simp at hi; subst hi; rfl

theorem checkJobsLoop_infos_props (f : String) (w : Yaml)
    (names : List String) :
    ∀ i ∈ (checkJobsLoop f w names).1.infos, i.file? = none := by
  induction names with
  | nil => intro i hi; simp [checkJobsLoop, emptyOut] at hi
  | cons n rest ih =>
    intro i hi
    cases hl : jobsLookup w n with
    | error e => simp [checkJobsLoop, hl, emptyOut] at hi
    | ok cfg =>
      cases hc : checkJob f n cfg with
      | error e => simp [checkJobsLoop, hl, hc, emptyOut] at hi
      | ok o =>
        simp [checkJobsLoop, hl, hc, Out.append_def] at hi
        rcases hi with hi | hi
        · exact checkJob_infos_props f n cfg o hc i hi
        · exact ih i hi

theorem checkRoot_infos (f : String) (rp : Yaml) :
    (checkRoot f rp).infos = [] := by
  rcases checkRoot_cases f rp with h | h <;> simp [h, emptyOut]

theorem processParsed_diag_file (f : String) (w : Yaml) :
    ∀ d ∈ (processParsed f w).1.diags, d.file = f := by
  cases hr : relevantOf w with
  | error e => intro d hd; simp [processParsed, hr, emptyOut] at hd
  | ok names =>
    cases names with
    | nil => intro d hd; simp [processParsed, hr, emptyOut] at hd
    | cons n rest =>
      cases hg : pyGetD w "permissions" (.ymap []) with
      | error e => intro d hd; simp [processParsed, hr, hg] at hd
      | ok rp =>
        intro d hd
        simp [processParsed, hr, hg, Out.append_def] at hd
        rcases hd with hd | hd
        · exact (checkRoot_diags_props f rp d hd).2
        · exact (checkJobsLoop_diags_props f w (n :: rest) d hd).2

theorem processParsed_info_file (f : String) (w : Yaml) :
    ∀ i ∈ (processParsed f w).1.infos, ∀ s, i.file? = some s → s = f := by
  cases hr : relevantOf w with
  | error e => intro i hi; simp [processParsed, hr, emptyOut] at hi
  | ok names =>
    cases names with
    | nil => intro i hi; simp [processParsed, hr, emptyOut] at hi
    | cons n rest =>
      cases hg : pyGetD w "permissions" (.ymap []) with
      | error e =>
        intro i hi s hs
        simp [processParsed, hr, hg] at hi
        rcases hi with hi | hi <;> subst hi
        · injection hs with hs2; exact hs2.symm
        · exact Option.noConfusion hs
      | ok rp =>
        intro i hi s hs
        simp [processParsed, hr, hg, Out.append_def, checkRoot_infos] at hi
        rcases hi with hi | hi | hi
        · subst hi; injection hs with hs2; exact hs2.symm
        · subst hi; exact Option.noConfusion hs
        · rw [checkJobsLoop_infos_props f w (n :: rest) i hi] at hs
          exact Option.noConfusion hs

theorem processFile_diag_file (f : String) (p : Except Unit Yaml) :
    ∀ d ∈ (processFile f p).diags, d.file = f := by
  cases p with
  | error e => intro d hd; simp [processFile] at hd; subst hd; rfl
  | ok w =>
    cases h2 : (processParsed f w).2 with
    | none =>
      intro d hd
      simp [processFile, h2] at hd
      exact processParsed_diag_file f w d hd
    | some e =>
      intro d hd
      simp [processFile, h2, Out.append_def] at hd
      rcases hd with hd | hd
      · exact processParsed_diag_file f w d hd
      · subst hd; rfl

theorem processFile_info_file (f : String) (p : Except Unit Yaml) :
    ∀ i ∈ (processFile f p).infos, ∀ s, i.file? = some s → s = f := by
  cases p with
  | error e => intro i hi; simp [processFile] at hi
  | ok w =>
    cases h2 : (processParsed f w).2 with
    | none =>
      intro i hi
      simp [processFile, h2] at hi
      exact processParsed_info_file f w i hi
    | some e =>
      intro i hi
      simp [processFile, h2, Out.append_def] at hi
      exact processParsed_info_file f w i hi

theorem runFiles_diag_file (files : List (String × Except Unit Yaml)) :
    ∀ d ∈ (runFiles files).diags, d.file ∈ files.map Prod.fst := by
  induction files with
  | nil => intro d hd; simp [runFiles, emptyOut] at hd
  | cons x xs ih =>
    cases x with
    | mk f p =>
      intro d hd
      simp [runFiles, Out.append_def] at hd
      rcases hd with hd | hd
      · simp [processFile_diag_file f p d hd]
      · simp [ih d hd]

theorem runFiles_info_file (files : List (String × Except Unit Yaml)) :
    ∀ i ∈ (runFiles files).infos, ∀ s, i.file? = some s →
      s ∈ files.map Prod.fst := by
  induction files with
  | nil => intro i hi; simp [runFiles, emptyOut] at hi
  | cons x xs ih =>
    cases x with
    | mk f p =>
      intro i hi s hs
      simp [runFiles, Out.append_def] at hi
      rcases hi with hi | hi
      · simp [processFile_info_file f p i hi s hs]
      · simp [ih i hi s hs]

/-- C6: a workflow file whose scan completes and finds no job referencing
the target action contributes nothing to the output — no diagnostics, no
informational lines, no error count — and in a run where no other file
shares its path, no output line of the whole run mentions it: every
diagnostic carries another file's path and every file-naming
informational line names another file. -/
theorem irrelevantFile_silent (f : String) (w : Yaml)
    (pre post : List (String × Except Unit Yaml))
    (h : relevantOf w = .ok [])
    (hf1 : f ∉ pre.map Prod.fst) (hf2 : f ∉ post.map Prod.fst) :
    processFile f (.ok w) = emptyOut ∧
    (∀ d ∈ (runFiles (pre ++ (f, .ok w) :: post)).diags, d.file ≠ f) ∧
    (∀ i ∈ (runFiles (pre ++ (f, .ok w) :: post)).infos, i.file? ≠ some f) := by
  have hskip : processFile f (.ok w) = emptyOut := by
    simp [processFile, processParsed, h]
  have hrun : runFiles (pre ++ (f, .ok w) :: post) =
      runFiles pre ++ runFiles post := by
    rw [runFiles_append]
    have : runFiles ((f, .ok w) :: post) =
        processFile f (.ok w) ++ runFiles post := rfl
    rw [this, hskip, emptyOut_append]
  refine ⟨hskip, ?_, ?_⟩
  · intro d hd
    rw [hrun] at hd
    rw [Out.append_def] at hd
    simp only [List.mem_append] at hd
    rcases hd with hd | hd
    · intro he
      exact hf1 (he ▸ runFiles_diag_file pre d hd)
    · intro he
      exact hf2 (he ▸ runFiles_diag_file post d hd)
  · intro i hi
    rw [hrun] at hi
    rw [Out.append_def] at hi
    simp only [List.mem_append] at hi
    rcases hi with hi | hi
    · intro he
      exact hf1 (runFiles_info_file pre i hi f he)
    · intro he
      exact hf2 (runFiles_info_file post i hi f he)

theorem irrelevantFile_silent_witness :
    processFile ".github/workflows/ci.yml" (.ok wfIrrelevant) = emptyOut ∧
    (∀ d ∈ (runFiles ([] ++ (".github/workflows/ci.yml", .ok wfIrrelevant) :: [])).diags,
      d.file ≠ ".github/workflows/ci.yml") ∧
    (∀ i ∈ (runFiles ([] ++ (".github/workflows/ci.yml", .ok wfIrrelevant) :: [])).infos,
      i.file? ≠ some ".github/workflows/ci.yml") :=
  irrelevantFile_silent ".github/workflows/ci.yml" wfIrrelevant [] [] rfl
    (by simp) (by simp)

/-- C5 counterexample: the document `5` parses successfully to a
non-mapping value, yet the file is not skipped silently: the membership
test `'jobs' in 5` raises a `TypeError`, so the blanket handler emits
one processing-error diagnostic for the file and the count rises by
one. -/
theorem nonMapping_not_skipped :
    (Yaml.yint 5).isMap = false ∧
      processFile "ci.yml" (.ok (.yint 5)) =
        ⟨[.processError "ci.yml"], [], 1⟩ :=
  ⟨rfl, rfl⟩

/-- C5 amended: a successfully parsed document is skipped silently (no
diagnostic, no count change) when it is falsy — null, false, zero, the
empty string, sequence or mapping — or when the `jobs` membership test
succeeds and returns false (which covers mappings lacking a `jobs` key,
and also non-mapping strings and sequences on which the Python `in`
operator happens to succeed negatively); but for a truthy document on
which the membership test raises — numbers, `true`, with strings or
sequences containing the element `jobs` passing the membership test and
raising on the subscription `workflow['jobs']` instead — the file is
not skipped: the handler emits one processing-error diagnostic and the
count rises by one. -/
theorem skipRule_amended (f : String) (w : Yaml) :
    (w.truthy = false → processFile f (.ok w) = emptyOut) ∧
    (pyIn "jobs" w = .ok false → processFile f (.ok w) = emptyOut) ∧
    (∀ m, w = .ymap m → alookup m "jobs" = none →
      processFile f (.ok w) = emptyOut) ∧
    (∀ e, w.truthy = true → pyIn "jobs" w = .error e →
      processFile f (.ok w) = ⟨[.processError f], [], 1⟩) ∧
    (∀ e, w.truthy = true → pyIn "jobs" w = .ok true →
      pySubscr w "jobs" = .error e →
      processFile f (.ok w) = ⟨[.processError f], [], 1⟩) := by
  have hok : pyIn "jobs" w = .ok false → processFile f (.ok w) = emptyOut := by
    intro h
    cases ht : w.truthy with
    | false => simp [processFile, processParsed, relevantOf, ht]
    | true => simp [processFile, processParsed, relevantOf, ht, h]
  refine ⟨?_, hok, ?_, ?_, ?_⟩
  · intro h
    simp [processFile, processParsed, relevantOf, h]
  · intro m hm hj
    subst hm
    exact hok (by simp [pyIn, hj])
  · intro e ht he
    simp [processFile, processParsed, relevantOf, ht, he, Out.append_def,
      emptyOut]
  · intro e ht h1 h2
    simp [processFile, processParsed, relevantOf, ht, h1, h2, Out.append_def,
      emptyOut]

theorem skipRule_amended_witness :
    processFile "empty.yml" (.ok .ynull) = emptyOut ∧
    processFile "doc.yml" (.ok (.ystr "all jobs")) =
      ⟨[.processError "doc.yml"], [], 1⟩ :=
  ⟨(skipRule_amended "empty.yml" .ynull).1 rfl,
   (skipRule_amended "doc.yml" (.ystr "all jobs")).2.2.2.2 .typeError
     rfl rfl rfl⟩

theorem stepTest_matches (s : Yaml) (h : stepMatchesSpec s = true) :
    stepTest s = .ok true := by
  cases s <;> simp [stepMatchesSpec] at h
  next m =>
  cases hu : alookup m "uses" with
  | none => rw [hu] at h; simp at h
  | some u =>
    rw [hu] at h
    cases u <;> simp at h
    next t => simp [stepTest, hu, pyIn, h]

theorem stepTest_wt (s : Yaml) (h : stepWellTyped s = true) :
    stepTest s = .ok (stepMatchesSpec s) := by
  cases s with
  | ynull => rfl
  | ybool b => rfl
  | yint i => rfl
  | ystr t => rfl
  | yseq xs => rfl
  | ymap m =>
    cases hu : alookup m "uses" with
    | none => simp [stepTest, stepMatchesSpec, hu]
    | some u =>
      cases u with
      | ystr t => simp [stepTest, stepMatchesSpec, hu, pyIn]
      | ynull => simp [stepWellTyped, hu] at h
      | ybool b => simp [stepWellTyped, hu] at h
      | yint i => simp [stepWellTyped, hu] at h
      | yseq xs => simp [stepWellTyped, hu] at h
      | ymap mm => simp [stepWellTyped, hu] at h

theorem scanSteps_wt (steps : List Yaml)
    (h : steps.all stepWellTyped = true) :
    scanSteps steps = .ok (steps.any stepMatchesSpec) := by
  induction steps with
  | nil => rfl
  | cons s rest ih =>
    rw [List.all_cons, Bool.and_eq_true] at h
    have h1 := stepTest_wt s h.1
    cases hm : stepMatchesSpec s with
    | true => simp [scanSteps, h1, hm]
    | false => simp [scanSteps, h1, hm, ih h.2]

theorem jobScan_wt (cfg : Yaml) (h : cfgWellTyped cfg = true) :
    jobScan cfg = .ok (jobRelevantSpec cfg) := by
  cases cfg with
  | ynull => simp [cfgWellTyped] at h
  | ybool b => simp [cfgWellTyped] at h
  | yint i => simp [cfgWellTyped] at h
  | ystr t => simp [cfgWellTyped] at h
  | yseq xs => simp [cfgWellTyped] at h
  | ymap jm =>
    cases hs : alookup jm "steps" with
    | none => simp [jobScan, pyIn, jobRelevantSpec, hs]
    | some v =>
      cases v with
      | yseq steps =>
        have h' : ∀ x ∈ steps, stepWellTyped x = true := by
          simp [cfgWellTyped, hs] at h; exact h
        have hwt : steps.all stepWellTyped = true := List.all_eq_true.mpr h'
        simp [jobScan, pyIn, pySubscr, pyIter, jobRelevantSpec, hs,
          scanSteps_wt steps hwt]
      | ynull => simp [cfgWellTyped, hs] at h
      | ybool b => simp [cfgWellTyped, hs] at h
      | yint i => simp [cfgWellTyped, hs] at h
      | ystr t => simp [cfgWellTyped, hs] at h
      | ymap mm => simp [cfgWellTyped, hs] at h

theorem scanJobs_wt (jobs : List (String × Yaml))
    (h : jobs.all (fun p => cfgWellTyped p.2) = true) :
    scanJobs jobs =
      .ok ((jobs.filter (fun p => jobRelevantSpec p.2)).map Prod.fst) := by
  induction jobs with
  | nil => rfl
  | cons x rest ih =>
    cases x with
    | mk name cfg =>
      rw [List.all_cons, Bool.and_eq_true] at h
      have h1 := jobScan_wt cfg h.1
      cases hb : jobRelevantSpec cfg with
      | true => simp [scanJobs, h1, hb, ih h.2, List.filter_cons]
      | false => simp [scanJobs, h1, hb, ih h.2, List.filter_cons]

/-- C3: under the data model of the specification — each job
configuration a mapping whose optional `steps` value is a sequence of
steps whose optional `uses` values are strings — a job is put on the
relevant list exactly when one of its steps is a mapping with a `uses`
value containing the target action identifier as a substring: the
resulting list is the in-order filtering of the jobs mapping, and, job
names being unique, each relevant job appears exactly once. Step
scanning short-circuits: as soon as one step matches, the remaining
steps of that job are never examined, whatever they contain. -/
theorem relevance_characterised (jobs : List (String × Yaml))
    (hwt : jobs.all (fun p => cfgWellTyped p.2) = true)
    (hnd : (jobs.map Prod.fst).Nodup) :
    (scanJobs jobs =
        .ok ((jobs.filter (fun p => jobRelevantSpec p.2)).map Prod.fst) ∧
      ((jobs.filter (fun p => jobRelevantSpec p.2)).map Prod.fst).Nodup) ∧
    (∀ (pre post : List Yaml) (s : Yaml),
      (∀ t ∈ pre, stepWellTyped t = true ∧ stepMatchesSpec t = false) →
      stepMatchesSpec s = true →
      scanSteps (pre ++ s :: post) = .ok true) := by
  refine ⟨⟨scanJobs_wt jobs hwt, ?_⟩, ?_⟩
  · have hsub : List.Sublist
        ((jobs.filter (fun p => jobRelevantSpec p.2)).map Prod.fst)
        (jobs.map Prod.fst) :=
      List.Sublist.map Prod.fst (List.filter_sublist jobs)
    exact hnd.sublist hsub
  · intro pre
    induction pre with
    | nil =>
      intro post s hpre hs
      simp [scanSteps, stepTest_matches s hs]
    | cons t ts ih =>
      intro post s hpre hs
      have h1 := hpre t (by simp)
      have h2 := stepTest_wt t h1.1
      simp only [List.cons_append, scanSteps, h2, h1.2]
      exact ih post s (fun u hu => hpre u (by simp [hu])) hs

theorem relevance_characterised_witness :
    scanJobs jobsTwo =
      .ok ((jobsTwo.filter (fun p => jobRelevantSpec p.2)).map Prod.fst) :=
  (relevance_characterised jobsTwo rfl (by decide)).1.1

/-- C10: discovery considers exactly the entries of the fixed
`.github/workflows` directory itself whose names end in `.yml` or
`.yaml`: a file elsewhere or with another name is never discovered (so
never read, parsed or checked — the run only processes discovered
files), every matching file is discovered, and every output line of a
run that names a file names the path of a discovered file. -/
theorem discovery_scope (repo : List RepoFile) (f : RepoFile)
    (h : f.dir ≠ workflowsDirPath ∨
      (strEndsWith f.name ".yml" = false ∧ strEndsWith f.name ".yaml" = false)) :
    f ∉ discover repo ∧
    (∀ g ∈ repo, g.dir = workflowsDirPath →
      (strEndsWith g.name ".yml" = true ∨ strEndsWith g.name ".yaml" = true) →
      g ∈ discover repo) ∧
    (∀ d ∈ (runRepo true repo).out.diags,
      ∃ g ∈ discover repo, d.file = fullPath g) ∧
    (∀ i ∈ (runRepo true repo).out.infos, ∀ s, i.file? = some s →
      ∃ g ∈ discover repo, s = fullPath g) := by
  refine ⟨?_, ?_, ?_, ?_⟩
  · intro hmem
    rcases List.mem_append.mp hmem with hm | hm
    · have hc := (List.mem_filter.mp hm).2
      rw [Bool.and_eq_true] at hc
      rcases h with h | ⟨h1, h2⟩
      · exact h (by simpa using hc.1)
      · rw [hc.2] at h1; exact Bool.noConfusion h1
    · have hc := (List.mem_filter.mp hm).2
      rw [Bool.and_eq_true] at hc
      rcases h with h | ⟨h1, h2⟩
      · exact h (by simpa using hc.1)
      · rw [hc.2] at h2; exact Bool.noConfusion h2
  · intro g hg hdir hext
    rcases hext with hext | hext
    · exact List.mem_append.mpr (Or.inl (List.mem_filter.mpr
        ⟨hg, by simp [hdir, hext]⟩))
    · exact List.mem_append.mpr (Or.inr (List.mem_filter.mpr
        ⟨hg, by simp [hdir, hext]⟩))
  · intro d hd
    have hd' : d ∈ (runFiles ((discover repo).map
        (fun g => (fullPath g, g.parsed)))).diags := hd
    have hm := runFiles_diag_file _ d hd'
    simp only [List.map_map, Function.comp] at hm
    rcases List.mem_map.mp hm with ⟨g, hg, he⟩
    exact ⟨g, hg, he.symm⟩
  · intro i hi s hs
    have hi' : i ∈ (runFiles ((discover repo).map
        (fun g => (fullPath g, g.parsed)))).infos := hi
    have hm := runFiles_info_file _ i hi' s hs
    simp only [List.map_map, Function.comp] at hm
    rcases List.mem_map.mp hm with ⟨g, hg, he⟩
    exact ⟨g, hg, he.symm⟩

theorem discovery_scope_witness :
    (⟨[".github", "workflows"], "notes.txt", .ok wfBad⟩ : RepoFile) ∉
      discover repoTwo :=
  (discovery_scope repoTwo ⟨[".github", "workflows"], "notes.txt", .ok wfBad⟩
    (Or.inr ⟨rfl, rfl⟩)).1
